import Mathlib

/-!
# Verification of the ndmg fiber-to-sparse-graph pipeline

Shallow embedding of the pipeline driven by `src/python/gengraph.py`:
a stream of fiber trajectories is accumulated into a sparse
voxel-connectivity matrix and then written out as fixed-size chunks.
The driver (`gengraph.main`) is embedded from the source; the library
components it calls (VoxelIndexer, SparseGraphAccumulator,
ChunkedMatrixWriter, i.e. the `fibergraph`/`fiber` modules, which are
not part of the available source tree) are modelled from the spec.
-/

/-- A 3D integer voxel coordinate (a point of a fiber trajectory). -/
structure Coord where
  x : Int
  y : Int
  z : Int
deriving DecidableEq

/-- Modelled from the spec: `VolumeShape`, three positive integers
(dimX, dimY, dimZ) describing the voxel grid extent (§3). -/
structure VolumeShape where
  dimX : Nat
  dimY : Nat
  dimZ : Nat
deriving DecidableEq

/-- The single error of the indexing/accumulation phase (§7). -/
inductive IndexError where
  | outOfBounds
deriving DecidableEq

deriving instance DecidableEq for Except

/-- Modelled from the spec: the VoxelIndexer bounds check — every
component must be nonnegative and strictly below the corresponding
shape dimension (§4.2). -/
def inBoundsP (c : Coord) (s : VolumeShape) : Prop :=
  0 ≤ c.x ∧ c.x < (s.dimX : Int) ∧ 0 ≤ c.y ∧ c.y < (s.dimY : Int) ∧
    0 ≤ c.z ∧ c.z < (s.dimZ : Int)

instance (c : Coord) (s : VolumeShape) : Decidable (inBoundsP c s) := by
  unfold inBoundsP; infer_instance

/-- Modelled from the spec: `VoxelIndexer.toLinear(coord, shape)` —
row-major flattening `x + dimX·(y + dimY·z)`, failing with
`OutOfBoundsError` when any component is negative or ≥ the
corresponding dimension (§4.2); the `fibergraph` module holding it is
not under the available source. -/
def toLinear (c : Coord) (s : VolumeShape) : Except IndexError Nat :=
  if inBoundsP c s then
    .ok (c.x.toNat + s.dimX * (c.y.toNat + s.dimY * c.z.toNat))
  else
    .error .outOfBounds

/-- Modelled from the spec: `VoxelIndexer.toChunkCoord(linearIndex,
chunkSize)` — the integer-division/remainder split used by the writer
(§4.2). -/
def toChunkCoord (lin : Nat) (chunkSize : Nat) : Nat × Nat :=
  (lin / chunkSize, lin % chunkSize)

/-- Modelled from the spec: the inverse linear→3D mapping of the
row-major flattening (§4.2, §8). -/
def fromLinear (lin : Nat) (s : VolumeShape) : Coord :=
  { x := (lin % s.dimX : Nat)
    y := ((lin / s.dimX) % s.dimY : Nat)
    z := (lin / (s.dimX * s.dimY) : Nat) }

lemma toLinear_ok_of_inBounds {c : Coord} {s : VolumeShape} (h : inBoundsP c s) :
    toLinear c s = .ok (c.x.toNat + s.dimX * (c.y.toNat + s.dimY * c.z.toNat)) := by
  simp [toLinear, h]

lemma fromLinear_toLinear {s : VolumeShape} {a b d : Nat}
    (ha : a < s.dimX) (hb : b < s.dimY) (hd : d < s.dimZ) :
    fromLinear (a + s.dimX * (b + s.dimY * d)) s = ⟨(a : Int), (b : Int), (d : Int)⟩ := by
  have hX : 0 < s.dimX := by omega
  have hXY : 0 < s.dimX * s.dimY := Nat.mul_pos hX (by omega)
  have hx : (a + s.dimX * (b + s.dimY * d)) % s.dimX = a := by
    rw [Nat.add_mul_mod_self_left, Nat.mod_eq_of_lt ha]
  have hq : (a + s.dimX * (b + s.dimY * d)) / s.dimX = b + s.dimY * d := by
    rw [Nat.add_mul_div_left _ _ hX, Nat.div_eq_of_lt ha, Nat.zero_add]
  have hy : ((a + s.dimX * (b + s.dimY * d)) / s.dimX) % s.dimY = b := by
    rw [hq, Nat.add_mul_mod_self_left, Nat.mod_eq_of_lt hb]
  have hsplit : a + s.dimX * (b + s.dimY * d) = (a + s.dimX * b) + s.dimX * s.dimY * d := by
    ring
  have hsmall : a + s.dimX * b < s.dimX * s.dimY := by
    calc a + s.dimX * b < s.dimX + s.dimX * b := by omega
    _ = s.dimX * (b + 1) := by ring
    _ ≤ s.dimX * s.dimY := Nat.mul_le_mul_left _ (by omega)
  have hz : (a + s.dimX * (b + s.dimY * d)) / (s.dimX * s.dimY) = d := by
    rw [hsplit, Nat.add_mul_div_left _ _ hXY, Nat.div_eq_of_lt hsmall, Nat.zero_add]
  simp [fromLinear, hx, hy, hz]

/-- C1: for every valid VolumeShape, every chunk size and every
coordinate whose components all lie within the shape, splitting
`toLinear coord shape` with `toChunkCoord`, recombining, and applying
the inverse linear→3D mapping recovers the original coordinate
exactly. -/
theorem toLinear_toChunkCoord_roundTrip (s : VolumeShape) (c : Coord) (k : Nat)
    (h : inBoundsP c s) :
    ∃ n, toLinear c s = .ok n ∧
      fromLinear ((toChunkCoord n k).1 * k + (toChunkCoord n k).2) s = c := by
  obtain ⟨x, y, z⟩ := c
  obtain ⟨h1, h2, h3, h4, h5, h6⟩ := h
  have hx1 : 0 ≤ x := h1
  have hx2 : x < (s.dimX : Int) := h2
  have hy1 : 0 ≤ y := h3
  have hy2 : y < (s.dimY : Int) := h4
  have hz1 : 0 ≤ z := h5
  have hz2 : z < (s.dimZ : Int) := h6
  refine ⟨x.toNat + s.dimX * (y.toNat + s.dimY * z.toNat),
    toLinear_ok_of_inBounds ⟨h1, h2, h3, h4, h5, h6⟩, ?_⟩
  have hrecomb : ∀ n : Nat, (toChunkCoord n k).1 * k + (toChunkCoord n k).2 = n := by
    intro n
    simp only [toChunkCoord]
    rw [Nat.mul_comm]
    exact Nat.div_add_mod n k
  rw [hrecomb]
  have ha : x.toNat < s.dimX := by omega
  have hb : y.toNat < s.dimY := by omega
  have hd : z.toNat < s.dimZ := by omega
  rw [fromLinear_toLinear ha hb hd]
  simp only [Coord.mk.injEq]
  omega

/-- Witness for C1 at a concrete shape, coordinate and chunk size. -/
theorem toLinear_toChunkCoord_roundTrip_witness :
    inBoundsP ⟨1, 2, 3⟩ ⟨4, 5, 6⟩ ∧
      ∃ n, toLinear ⟨1, 2, 3⟩ ⟨4, 5, 6⟩ = .ok n ∧
        fromLinear ((toChunkCoord n 7).1 * 7 + (toChunkCoord n 7).2) ⟨4, 5, 6⟩ = ⟨1, 2, 3⟩ :=
  ⟨by decide, toLinear_toChunkCoord_roundTrip ⟨4, 5, 6⟩ ⟨1, 2, 3⟩ 7 (by decide)⟩

/-- One stored entry of the sparse matrix: an edge between two linear
voxel indices with its traversal count. -/
structure Edge where
  row : Nat
  col : Nat
  weight : Nat
deriving DecidableEq

/-- Modelled from the spec: `SparseMatrix`, a mapping from
(rowIndex, colIndex) to weight (§3), embedded as an association list
of edges (the original keeps a dynamic dict of dicts). -/
abbrev SparseMatrix := List Edge

/-- The weight the matrix records for the ordered pair (r, c);
absent keys read as 0. -/
def getWeight (m : SparseMatrix) (r c : Nat) : Nat :=
  match m with
  | [] => 0
  | e :: rest => if e.row = r ∧ e.col = c then e.weight else getWeight rest r c

/-- Modelled from the spec: the merge-or-increment operation of the
accumulator — bump the weight at (r, c) by 1, creating the entry with
weight 1 when absent (§3, §4.3). -/
def incr (m : SparseMatrix) (r c : Nat) : SparseMatrix :=
  match m with
  | [] => [⟨r, c, 1⟩]
  | e :: rest =>
      if e.row = r ∧ e.col = c then ⟨e.row, e.col, e.weight + 1⟩ :: rest
      else e :: incr rest r c

/-- The key list of the matrix. -/
def keys (m : SparseMatrix) : List (Nat × Nat) :=
  m.map fun e => (e.row, e.col)

/-- The sum of all edge weights stored in the matrix. -/
def totalWeight (m : SparseMatrix) : Nat :=
  (m.map Edge.weight).sum

lemma getWeight_incr (m : SparseMatrix) (i j r c : Nat) :
    getWeight (incr m i j) r c =
      getWeight m r c + if i = r ∧ j = c then 1 else 0 := by
  induction m with
  | nil =>
      by_cases hij : i = r ∧ j = c
      · simp [incr, getWeight, hij.1, hij.2, hij]
      · have : ¬ ((⟨i, j, 1⟩ : Edge).row = r ∧ (⟨i, j, 1⟩ : Edge).col = c) := hij
        simp [incr, getWeight, this, hij]
  | cons e rest ih =>
      by_cases he : e.row = i ∧ e.col = j
      · have hmatch : incr (e :: rest) i j = ⟨e.row, e.col, e.weight + 1⟩ :: rest := by
          simp [incr, he]
        rw [hmatch]
        by_cases hrc : e.row = r ∧ e.col = c
        · have hij : i = r ∧ j = c := ⟨he.1 ▸ hrc.1, he.2 ▸ hrc.2⟩
          simp [getWeight, hrc, hij]
        · have hij : ¬ (i = r ∧ j = c) := by
            intro hx
            exact hrc ⟨he.1.trans hx.1, he.2.trans hx.2⟩
          simp [getWeight, hrc, hij]
      · have hmiss : incr (e :: rest) i j = e :: incr rest i j := by
          simp [incr, he]
        rw [hmiss]
        by_cases hrc : e.row = r ∧ e.col = c
        · have hij : ¬ (i = r ∧ j = c) := by
            intro hx
            exact he ⟨hrc.1.trans hx.1.symm, hrc.2.trans hx.2.symm⟩
          simp [getWeight, hrc, hij]
        · simp [getWeight, hrc, ih]

lemma totalWeight_incr (m : SparseMatrix) (i j : Nat) :
    totalWeight (incr m i j) = totalWeight m + 1 := by
  induction m with
  | nil => simp [incr, totalWeight]
  | cons e rest ih =>
      by_cases he : e.row = i ∧ e.col = j
      · simp [incr, he, totalWeight]
        omega
      · simp [incr, he, totalWeight] at ih ⊢
        omega

lemma posWeight_incr (m : SparseMatrix) (i j : Nat)
    (h : ∀ e ∈ m, 0 < e.weight) : ∀ e ∈ incr m i j, 0 < e.weight := by
  induction m with
  | nil =>
      intro e he
      simp [incr] at he
      simp [he]
  | cons a rest ih =>
      intro e he
      by_cases ha : a.row = i ∧ a.col = j
      · simp [incr, ha] at he
        rcases he with he | he
        · simp [he]
        · exact h e (List.mem_cons_of_mem a he)
      · simp [incr, ha] at he
        rcases he with he | he
        · exact h e (he ▸ List.mem_cons_self a rest)
        · exact ih (fun e' he' => h e' (List.mem_cons_of_mem a he')) e he

/-- Abbreviation for the in-bounds linear index value produced by
`toLinear`. -/
def linVal (c : Coord) (s : VolumeShape) : Nat :=
  c.x.toNat + s.dimX * (c.y.toNat + s.dimY * c.z.toNat)

/-- The ordered consecutive point pairs (pᵢ, pᵢ₊₁) of a trajectory. -/
def pairs (t : List Coord) : List (Coord × Coord) :=
  t.zip t.tail

/-- Both endpoints of a pair lie inside the volume. -/
def pairOk (s : VolumeShape) (p : Coord × Coord) : Bool :=
  decide (inBoundsP p.1 s) && decide (inBoundsP p.2 s)

/-- Every consecutive pair of the trajectory has in-bounds endpoints. -/
def trajOk (s : VolumeShape) (t : List Coord) : Bool :=
  (pairs t).all (pairOk s)

/-- Modelled from the spec: the accumulator's inner loop — map each
endpoint of each consecutive pair to a LinearIndex via VoxelIndexer
and increment the matrix entry, propagating `OutOfBoundsError`
(§4.3). -/
def addPairs (s : VolumeShape) (m : SparseMatrix) :
    List (Coord × Coord) → Except IndexError SparseMatrix
  | [] => .ok m
  | p :: ps =>
      match toLinear p.1 s, toLinear p.2 s with
      | .ok i, .ok j => addPairs s (incr m i j) ps
      | _, _ => .error .outOfBounds

namespace FiberGraph

/-- Modelled from the spec: `SparseGraphAccumulator.add(trajectory)`
(the Python `FiberGraph.add`, whose module is not under the available
source): derive the n−1 consecutive voxel pairs and increment each
corresponding matrix entry by 1 (§4.3). -/
def add (s : VolumeShape) (m : SparseMatrix) (t : List Coord) :
    Except IndexError SparseMatrix :=
  addPairs s m (pairs t)

end FiberGraph

/-- Feed a list of trajectories to the accumulator, one at a time. -/
def accumulate (s : VolumeShape) (m : SparseMatrix) :
    List (List Coord) → Except IndexError SparseMatrix
  | [] => .ok m
  | t :: ts =>
      match FiberGraph.add s m t with
      | .ok m' => accumulate s m' ts
      | .error e => .error e

/-- How many consecutive pairs of the trajectory map to the ordered
linear-index pair (r, c). -/
def pairContrib (s : VolumeShape) (r c : Nat) (t : List Coord) : Nat :=
  (pairs t).countP fun p =>
    decide (toLinear p.1 s = .ok r ∧ toLinear p.2 s = .ok c)

lemma addPairs_ok (s : VolumeShape) :
    ∀ (ps : List (Coord × Coord)) (m : SparseMatrix),
      ps.all (pairOk s) = true →
      ∃ m', addPairs s m ps = .ok m' ∧
        (∀ r c, getWeight m' r c = getWeight m r c +
          ps.countP (fun p =>
            decide (toLinear p.1 s = .ok r ∧ toLinear p.2 s = .ok c))) ∧
        totalWeight m' = totalWeight m + ps.length ∧
        ((∀ e ∈ m, 0 < e.weight) → ∀ e ∈ m', 0 < e.weight) := by
  intro ps
  induction ps with
  | nil =>
      intro m _
      exact ⟨m, rfl, fun r c => by simp, by simp, fun h => h⟩
  | cons p ps ih =>
      intro m hall
      simp only [List.all_cons, Bool.and_eq_true] at hall
      obtain ⟨hp, hps⟩ := hall
      simp only [pairOk, Bool.and_eq_true, decide_eq_true_eq] at hp
      have h1 : toLinear p.1 s = .ok (linVal p.1 s) := toLinear_ok_of_inBounds hp.1
      have h2 : toLinear p.2 s = .ok (linVal p.2 s) := toLinear_ok_of_inBounds hp.2
      have hstep : addPairs s m (p :: ps) =
          addPairs s (incr m (linVal p.1 s) (linVal p.2 s)) ps := by
        simp [addPairs, h1, h2]
      obtain ⟨m', hacc, hw, htot, hpos⟩ :=
        ih (incr m (linVal p.1 s) (linVal p.2 s)) hps
      refine ⟨m', hstep ▸ hacc, ?_, ?_, ?_⟩
      · intro r c
        rw [hw r c, getWeight_incr, List.countP_cons]
        have : (decide (toLinear p.1 s = .ok r ∧ toLinear p.2 s = .ok c)) =
            decide (linVal p.1 s = r ∧ linVal p.2 s = c) := by
          simp [h1, h2]
        rw [this]
        by_cases hd : linVal p.1 s = r ∧ linVal p.2 s = c
        · simp [hd]
          omega
        · simp [hd]
      · rw [htot, totalWeight_incr, List.length_cons]
        omega
      · intro hm
        exact hpos (posWeight_incr _ _ _ hm)

lemma addPairs_error (s : VolumeShape) :
    ∀ (ps : List (Coord × Coord)) (m : SparseMatrix),
      ps.all (pairOk s) = false →
      addPairs s m ps = .error .outOfBounds := by
  intro ps
  induction ps with
  | nil => intro m h; simp at h
  | cons p ps ih =>
      intro m hall
      simp only [List.all_cons, Bool.and_eq_false_iff] at hall
      by_cases hp : pairOk s p = true
      · have hps : ps.all (pairOk s) = false := by
          rcases hall with h | h
          · rw [hp] at h; cases h
          · exact h
        simp only [pairOk, Bool.and_eq_true, decide_eq_true_eq] at hp
        have h1 : toLinear p.1 s = .ok (linVal p.1 s) := toLinear_ok_of_inBounds hp.1
        have h2 : toLinear p.2 s = .ok (linVal p.2 s) := toLinear_ok_of_inBounds hp.2
        simp [addPairs, h1, h2]
        exact ih _ hps
      · simp only [pairOk, Bool.and_eq_true, decide_eq_true_eq, not_and_or] at hp
        rcases hp with hp | hp
        · have h1 : toLinear p.1 s = .error .outOfBounds := by simp [toLinear, hp]
          cases h2 : toLinear p.2 s with
          | ok j => simp [addPairs, h1, h2]
          | error e => simp [addPairs, h1, h2]
        · have h2 : toLinear p.2 s = .error .outOfBounds := by simp [toLinear, hp]
          cases h1 : toLinear p.1 s with
          | ok i => simp [addPairs, h1, h2]
          | error e => simp [addPairs, h1, h2]

/-- A key is present exactly when its recorded weight is positive,
provided every stored entry has positive weight (as the accumulator
guarantees). -/
lemma mem_keys_iff_getWeight_pos {m : SparseMatrix}
    (hpos : ∀ e ∈ m, 0 < e.weight) (r c : Nat) :
    (r, c) ∈ keys m ↔ 0 < getWeight m r c := by
  induction m with
  | nil => simp [keys, getWeight]
  | cons e rest ih =>
      have hrest := ih fun e' he' => hpos e' (List.mem_cons_of_mem e he')
      by_cases hrc : e.row = r ∧ e.col = c
      · simp [keys, getWeight, hrc, hrc.1, hrc.2]
        exact hpos e (List.mem_cons_self e rest)
      · have hne : ¬ ((e.row, e.col) = (r, c)) := by
          simp [Prod.ext_iff]
          intro h1 h2
          exact hrc ⟨h1, h2⟩
        simp [keys, getWeight, hrc] at hrest ⊢
        constructor
        · rintro (h | h)
          · exact absurd (Prod.ext_iff.mpr ⟨h.1.symm, h.2.symm⟩) hne
          · exact hrest.mp h
        · intro h
          exact Or.inr (hrest.mpr h)

lemma add_ok {s : VolumeShape} {t : List Coord} (m : SparseMatrix)
    (h : trajOk s t = true) :
    ∃ m', FiberGraph.add s m t = .ok m' ∧
      (∀ r c, getWeight m' r c = getWeight m r c + pairContrib s r c t) ∧
      totalWeight m' = totalWeight m + (pairs t).length ∧
      ((∀ e ∈ m, 0 < e.weight) → ∀ e ∈ m', 0 < e.weight) :=
  addPairs_ok s (pairs t) m h

lemma add_error {s : VolumeShape} {t : List Coord} (m : SparseMatrix)
    (h : trajOk s t = false) :
    FiberGraph.add s m t = .error .outOfBounds :=
  addPairs_error s (pairs t) m h

lemma accumulate_ok (s : VolumeShape) :
    ∀ (ts : List (List Coord)) (m : SparseMatrix),
      ts.all (trajOk s) = true →
      ∃ m', accumulate s m ts = .ok m' ∧
        (∀ r c, getWeight m' r c =
          getWeight m r c + (ts.map (pairContrib s r c)).sum) ∧
        totalWeight m' = totalWeight m + (ts.map fun t => (pairs t).length).sum ∧
        ((∀ e ∈ m, 0 < e.weight) → ∀ e ∈ m', 0 < e.weight) := by
  intro ts
  induction ts with
  | nil =>
      intro m _
      exact ⟨m, rfl, fun r c => by simp, by simp, fun h => h⟩
  | cons t ts ih =>
      intro m hall
      simp only [List.all_cons, Bool.and_eq_true] at hall
      obtain ⟨ht, hts⟩ := hall
      obtain ⟨m₁, hadd, hw₁, htot₁, hpos₁⟩ := add_ok m ht
      obtain ⟨m', hacc, hw, htot, hpos⟩ := ih m₁ hts
      have hstep : accumulate s m (t :: ts) = accumulate s m₁ ts := by
        simp [accumulate, hadd]
      refine ⟨m', hstep ▸ hacc, ?_, ?_, ?_⟩
      · intro r c
        rw [hw r c, hw₁ r c, List.map_cons, List.sum_cons]
        omega
      · rw [htot, htot₁, List.map_cons, List.sum_cons]
        omega
      · intro hm
        exact hpos (hpos₁ hm)

lemma accumulate_error (s : VolumeShape) :
    ∀ (ts : List (List Coord)) (m : SparseMatrix),
      ts.all (trajOk s) = false →
      accumulate s m ts = .error .outOfBounds := by
  intro ts
  induction ts with
  | nil => intro m h; simp at h
  | cons t ts ih =>
      intro m hall
      simp only [List.all_cons, Bool.and_eq_false_iff] at hall
      by_cases ht : trajOk s t = true
      · have hts : ts.all (trajOk s) = false := by
          rcases hall with h | h
          · rw [ht] at h; cases h
          · exact h
        obtain ⟨m₁, hadd, _, _, _⟩ := add_ok m ht
        simp [accumulate, hadd]
        exact ih m₁ hts
      · have ht' : trajOk s t = false := by
          cases hx : trajOk s t
          · rfl
          · exact absurd hx ht
        simp [accumulate, add_error m ht']

lemma accumulate_error_iff (s : VolumeShape) (ts : List (List Coord))
    (m : SparseMatrix) :
    accumulate s m ts = .error .outOfBounds ↔ ts.all (trajOk s) = false := by
  constructor
  · intro h
    cases hx : ts.all (trajOk s)
    · rfl
    · obtain ⟨m', hacc, _, _, _⟩ := accumulate_ok s ts m hx
      rw [hacc] at h
      cases h
  · exact accumulate_error s ts m

/-- The number of consecutive pairs of a trajectory is
`pointCount − 1` (truncated at 0). -/
lemma length_pairs (t : List Coord) : (pairs t).length = t.length - 1 := by
  rw [pairs, List.length_zip, List.length_tail]
  omega

/-- C4: a trajectory with fewer than two points leaves the sparse
matrix unchanged — it contributes no pairs, so `add` returns the
matrix as is (a zero-point trajectory is ignored, not a crash). -/
theorem add_short_trajectory (s : VolumeShape) (m : SparseMatrix)
    (t : List Coord) (h : t.length < 2) :
    FiberGraph.add s m t = .ok m := by
  have hp : pairs t = [] := by
    match t, h with
    | [], _ => rfl
    | [a], _ => rfl
  rw [FiberGraph.add, hp]
  rfl

/-- Witness for C4 on a concrete one-point and zero-point trajectory. -/
theorem add_short_trajectory_witness :
    ([(⟨0, 0, 0⟩ : Coord)].length < 2 ∧
      FiberGraph.add ⟨4, 4, 4⟩ [⟨0, 1, 1⟩] [⟨0, 0, 0⟩] = .ok [⟨0, 1, 1⟩]) ∧
    (([] : List Coord).length < 2 ∧
      FiberGraph.add ⟨4, 4, 4⟩ [] [] = .ok []) :=
  ⟨⟨by decide, add_short_trajectory ⟨4, 4, 4⟩ [⟨0, 1, 1⟩] [⟨0, 0, 0⟩] (by decide)⟩,
   ⟨by decide, add_short_trajectory ⟨4, 4, 4⟩ [] [] (by decide)⟩⟩

/-- C5: an out-of-range component makes `toLinear` fail with
`OutOfBoundsError` (no wrapping or clamping), an in-bounds coordinate
always succeeds, and the accumulator propagates the error whenever a
consecutive pair of a trajectory has an out-of-bounds endpoint. -/
theorem toLinear_bounds (s : VolumeShape) (c : Coord) :
    ((c.x < 0 ∨ (s.dimX : Int) ≤ c.x ∨ c.y < 0 ∨ (s.dimY : Int) ≤ c.y ∨
        c.z < 0 ∨ (s.dimZ : Int) ≤ c.z) →
      toLinear c s = .error .outOfBounds) ∧
    (inBoundsP c s → ∃ n, toLinear c s = .ok n) ∧
    (∀ (m : SparseMatrix) (t : List Coord), trajOk s t = false →
      FiberGraph.add s m t = .error .outOfBounds) ∧
    (∀ (m : SparseMatrix) (ts : List (List Coord)) (t : List Coord),
      t ∈ ts → trajOk s t = false →
      accumulate s m ts = .error .outOfBounds) := by
  refine ⟨?_, ?_, ?_, ?_⟩
  · intro h
    have hnb : ¬ inBoundsP c s := by
      simp only [inBoundsP]
      omega
    simp [toLinear, hnb]
  · intro h
    exact ⟨_, toLinear_ok_of_inBounds h⟩
  · intro m t ht
    exact add_error m ht
  · intro m ts t hmem hbad
    apply accumulate_error
    cases hx : ts.all (trajOk s)
    · rfl
    · have := List.all_eq_true.mp hx t hmem
      rw [hbad] at this
      cases this
/-- Witness for C5 at concrete coordinates and trajectories. -/
theorem toLinear_bounds_witness :
    toLinear ⟨4, 0, 0⟩ ⟨4, 4, 4⟩ = .error .outOfBounds ∧
    (∃ n, toLinear ⟨1, 2, 3⟩ ⟨4, 4, 4⟩ = .ok n) ∧
    FiberGraph.add ⟨4, 4, 4⟩ [] [⟨0, 0, 0⟩, ⟨4, 0, 0⟩] = .error .outOfBounds ∧
    accumulate ⟨4, 4, 4⟩ [] [[⟨0, 0, 0⟩, ⟨4, 0, 0⟩]] = .error .outOfBounds :=
  ⟨(toLinear_bounds ⟨4, 4, 4⟩ ⟨4, 0, 0⟩).1 (by decide),
   (toLinear_bounds ⟨4, 4, 4⟩ ⟨1, 2, 3⟩).2.1 (by decide),
   (toLinear_bounds ⟨4, 4, 4⟩ ⟨4, 0, 0⟩).2.2.1 [] [⟨0, 0, 0⟩, ⟨4, 0, 0⟩]
     (by decide),
   (toLinear_bounds ⟨4, 4, 4⟩ ⟨4, 0, 0⟩).2.2.2 [] [[⟨0, 0, 0⟩, ⟨4, 0, 0⟩]]
     [⟨0, 0, 0⟩, ⟨4, 0, 0⟩] (by decide) (by decide)⟩

/-- C2: accumulating any finite collection of in-bounds trajectories
succeeds, and the sum of all edge weights of the final matrix is the
total number of consecutive-point pairs, Σ over trajectories of
max(pointCount − 1, 0). -/
theorem conservation (s : VolumeShape) (ts : List (List Coord))
    (h : ∀ t ∈ ts, ∀ c ∈ t, inBoundsP c s) :
    ∃ m, accumulate s [] ts = .ok m ∧
      totalWeight m = (ts.map fun t => max (t.length - 1) 0).sum := by
  have hall : ts.all (trajOk s) = true := by
    rw [List.all_eq_true]
    intro t ht
    rw [trajOk, List.all_eq_true]
    intro p hp
    obtain ⟨a, b⟩ := p
    rw [pairs] at hp
    obtain ⟨ha, hb⟩ := List.of_mem_zip hp
    have hb' : b ∈ t := List.tail_subset t hb
    simp [pairOk, h t ht a ha, h t ht b hb']
  obtain ⟨m, hacc, _, htot, _⟩ := accumulate_ok s ts [] hall
  refine ⟨m, hacc, ?_⟩
  rw [htot]
  simp only [length_pairs, Nat.max_zero, totalWeight, List.map_nil,
    List.sum_nil, Nat.zero_add]

/-- Witness for C2 on the spec's §8 scenario: a single trajectory of
three points, two of its pairs landing on edges (0,1) and (1,1). -/
theorem conservation_witness :
    (∀ t ∈ [[(⟨0, 0, 0⟩ : Coord), ⟨1, 0, 0⟩, ⟨1, 0, 0⟩]],
      ∀ c ∈ t, inBoundsP c ⟨4, 4, 4⟩) ∧
    ∃ m, accumulate ⟨4, 4, 4⟩ [] [[⟨0, 0, 0⟩, ⟨1, 0, 0⟩, ⟨1, 0, 0⟩]] = .ok m ∧
      totalWeight m =
        (([[(⟨0, 0, 0⟩ : Coord), ⟨1, 0, 0⟩, ⟨1, 0, 0⟩]]).map
          fun t => max (t.length - 1) 0).sum :=
  ⟨by decide,
   conservation ⟨4, 4, 4⟩ [[⟨0, 0, 0⟩, ⟨1, 0, 0⟩, ⟨1, 0, 0⟩]] (by decide)⟩

/-- C3: feeding the same multiset of trajectories to the accumulator
in any order yields the same final SparseMatrix: the two runs fail
identically, and when they succeed the resulting matrices agree on
every weight and have the same key set. -/
theorem accumulation_order_independent (s : VolumeShape)
    (ts₁ ts₂ : List (List Coord)) (hperm : ts₁.Perm ts₂) :
    (∀ e, accumulate s [] ts₁ = .error e ↔ accumulate s [] ts₂ = .error e) ∧
    (∀ m₁ m₂, accumulate s [] ts₁ = .ok m₁ → accumulate s [] ts₂ = .ok m₂ →
      (∀ r c, getWeight m₁ r c = getWeight m₂ r c) ∧
      (∀ r c, (r, c) ∈ keys m₁ ↔ (r, c) ∈ keys m₂)) := by
  have hallIff : ts₁.all (trajOk s) = ts₂.all (trajOk s) := by
    cases h1 : ts₁.all (trajOk s) <;> cases h2 : ts₂.all (trajOk s)
    · rfl
    · exfalso
      rw [List.all_eq_true] at h2
      have hx : ts₁.all (trajOk s) = true :=
        List.all_eq_true.mpr fun t ht => h2 t (hperm.mem_iff.mp ht)
      rw [h1] at hx
      cases hx
    · exfalso
      rw [List.all_eq_true] at h1
      have hx : ts₂.all (trajOk s) = true :=
        List.all_eq_true.mpr fun t ht => h1 t (hperm.mem_iff.mpr ht)
      rw [h2] at hx
      cases hx
    · rfl
  constructor
  · intro e
    cases e
    rw [accumulate_error_iff, accumulate_error_iff, hallIff]
  · intro m₁ m₂ h1 h2
    have hall1 : ts₁.all (trajOk s) = true := by
      cases hx : ts₁.all (trajOk s)
      · rw [accumulate_error s ts₁ [] hx] at h1
        cases h1
      · rfl
    have hall2 : ts₂.all (trajOk s) = true := hallIff ▸ hall1
    obtain ⟨m₁', hacc1, hw1, _, hpos1⟩ := accumulate_ok s ts₁ [] hall1
    obtain ⟨m₂', hacc2, hw2, _, hpos2⟩ := accumulate_ok s ts₂ [] hall2
    rw [h1] at hacc1
    injection hacc1 with e1
    rw [h2] at hacc2
    injection hacc2 with e2
    subst e1
    subst e2
    have hgw : ∀ r c, getWeight m₁ r c = getWeight m₂ r c := by
      intro r c
      rw [hw1 r c, hw2 r c]
      have := (hperm.map (pairContrib s r c)).sum_eq
      omega
    have hpos1' : ∀ e ∈ m₁, 0 < e.weight :=
      hpos1 fun e he => absurd he (List.not_mem_nil e)
    have hpos2' : ∀ e ∈ m₂, 0 < e.weight :=
      hpos2 fun e he => absurd he (List.not_mem_nil e)
    refine ⟨hgw, fun r c => ?_⟩
    rw [mem_keys_iff_getWeight_pos hpos1' r c,
      mem_keys_iff_getWeight_pos hpos2' r c, hgw r c]

/-- Witness for C3 on two orderings of the same two trajectories. -/
theorem accumulation_order_independent_witness :
    ([[(⟨0, 0, 0⟩ : Coord), ⟨1, 0, 0⟩], [⟨1, 0, 0⟩, ⟨1, 0, 0⟩]]).Perm
      [[(⟨1, 0, 0⟩ : Coord), ⟨1, 0, 0⟩], [⟨0, 0, 0⟩, ⟨1, 0, 0⟩]] ∧
    ((∀ e, accumulate ⟨4, 4, 4⟩ []
        [[⟨0, 0, 0⟩, ⟨1, 0, 0⟩], [⟨1, 0, 0⟩, ⟨1, 0, 0⟩]] = .error e ↔
      accumulate ⟨4, 4, 4⟩ []
        [[⟨1, 0, 0⟩, ⟨1, 0, 0⟩], [⟨0, 0, 0⟩, ⟨1, 0, 0⟩]] = .error e) ∧
    (∀ m₁ m₂,
      accumulate ⟨4, 4, 4⟩ []
        [[⟨0, 0, 0⟩, ⟨1, 0, 0⟩], [⟨1, 0, 0⟩, ⟨1, 0, 0⟩]] = .ok m₁ →
      accumulate ⟨4, 4, 4⟩ []
        [[⟨1, 0, 0⟩, ⟨1, 0, 0⟩], [⟨0, 0, 0⟩, ⟨1, 0, 0⟩]] = .ok m₂ →
      (∀ r c, getWeight m₁ r c = getWeight m₂ r c) ∧
      (∀ r c, (r, c) ∈ keys m₁ ↔ (r, c) ∈ keys m₂))) :=
  ⟨by decide,
   accumulation_order_independent ⟨4, 4, 4⟩
     [[⟨0, 0, 0⟩, ⟨1, 0, 0⟩], [⟨1, 0, 0⟩, ⟨1, 0, 0⟩]]
     [[⟨1, 0, 0⟩, ⟨1, 0, 0⟩], [⟨0, 0, 0⟩, ⟨1, 0, 0⟩]] (by decide)⟩

/-- The chunk coordinate (chunkRow, chunkCol) of an edge, via
`toChunkCoord` on each axis. -/
def edgeChunk (chunkRows chunkCols : Nat) (e : Edge) : Nat × Nat :=
  ((toChunkCoord e.row chunkRows).1, (toChunkCoord e.col chunkCols).1)

/-- The chunk-local (localRow, localCol, weight) triple of an edge. -/
def edgeLocal (chunkRows chunkCols : Nat) (e : Edge) : Nat × Nat × Nat :=
  ((toChunkCoord e.row chunkRows).2, (toChunkCoord e.col chunkCols).2, e.weight)

/-- Lexicographic order on chunk coordinates: ascending chunkRow,
then ascending chunkCol. -/
def chunkLe (a b : Nat × Nat) : Bool :=
  decide (a.1 < b.1 ∨ (a.1 = b.1 ∧ a.2 ≤ b.2))

/-- One emitted chunk: a header carrying the chunk coordinate and the
number of non-zero entries, followed by the entries' chunk-local
triples. -/
structure ChunkRecord where
  chunkRow : Nat
  chunkCol : Nat
  entryCount : Nat
  triples : List (Nat × Nat × Nat)
deriving DecidableEq

/-- Modelled from the spec: `ChunkedMatrixWriter.write`, the Python
`FiberGraph.writeForSciDB` (its module is not under the available
source): group the matrix entries by chunk coordinate and emit each
non-empty chunk, in ascending (chunkRow, chunkCol) order, as a header
with the chunk coordinate and entry count followed by the
(localRow, localCol, weight) triples (§4.4). -/
def writeForSciDB (m : SparseMatrix) (chunkRows chunkCols : Nat) :
    List ChunkRecord :=
  (((m.map (edgeChunk chunkRows chunkCols)).dedup).mergeSort chunkLe).map
    fun cc =>
      let es := m.filter fun e => decide (edgeChunk chunkRows chunkCols e = cc)
      ⟨cc.1, cc.2, es.length, es.map (edgeLocal chunkRows chunkCols)⟩

lemma chunkCoords_nodup (m : SparseMatrix) (chunkRows chunkCols : Nat) :
    (((m.map (edgeChunk chunkRows chunkCols)).dedup).mergeSort chunkLe).Nodup :=
  (List.mergeSort_perm (m.map (edgeChunk chunkRows chunkCols)).dedup
    chunkLe).symm.nodup (List.nodup_dedup _)

lemma mem_chunkCoords {m : SparseMatrix} {chunkRows chunkCols : Nat}
    {cc : Nat × Nat} :
    cc ∈ ((m.map (edgeChunk chunkRows chunkCols)).dedup).mergeSort chunkLe ↔
      ∃ e ∈ m, edgeChunk chunkRows chunkCols e = cc := by
  rw [(List.mergeSort_perm _ chunkLe).mem_iff, List.mem_dedup, List.mem_map]

/-- C6: every non-zero entry of the accumulated matrix appears in
exactly one emitted chunk — the chunk coordinates of the emitted
records are pairwise distinct and the entry's chunk-local triple,
formed by `toChunkCoord`, is listed in the record carrying the entry's
chunk coordinate — and no emitted chunk is empty. -/
theorem chunk_completeness (m : SparseMatrix) (chunkRows chunkCols : Nat) :
    ((writeForSciDB m chunkRows chunkCols).map
      fun r => (r.chunkRow, r.chunkCol)).Nodup ∧
    (∀ e ∈ m, 0 < e.weight →
      ∃ r ∈ writeForSciDB m chunkRows chunkCols,
        (r.chunkRow, r.chunkCol) = edgeChunk chunkRows chunkCols e ∧
        edgeLocal chunkRows chunkCols e ∈ r.triples) ∧
    (∀ r ∈ writeForSciDB m chunkRows chunkCols, r.triples ≠ []) := by
  refine ⟨?_, ?_, ?_⟩
  · rw [writeForSciDB, List.map_map]
    have hid : ((fun r : ChunkRecord => (r.chunkRow, r.chunkCol)) ∘
        fun cc : Nat × Nat =>
          ChunkRecord.mk cc.1 cc.2
            (m.filter fun e =>
              decide (edgeChunk chunkRows chunkCols e = cc)).length
            ((m.filter fun e =>
              decide (edgeChunk chunkRows chunkCols e = cc)).map
                (edgeLocal chunkRows chunkCols))) = id := by
      funext cc
      rfl
    rw [hid, List.map_id]
    exact chunkCoords_nodup m chunkRows chunkCols
  · intro e he _
    have hcc : edgeChunk chunkRows chunkCols e ∈
        ((m.map (edgeChunk chunkRows chunkCols)).dedup).mergeSort chunkLe :=
      mem_chunkCoords.mpr ⟨e, he, rfl⟩
    refine ⟨_, List.mem_map_of_mem _ hcc, ?_, ?_⟩
    · exact Prod.mk.eta
    · exact List.mem_map_of_mem _
        (List.mem_filter.mpr ⟨he, by simp⟩)
  · intro r hr
    rw [writeForSciDB, List.mem_map] at hr
    obtain ⟨cc, hcc, hrec⟩ := hr
    obtain ⟨e, he, hec⟩ := mem_chunkCoords.mp hcc
    subst hrec
    simp only [ne_eq, List.map_eq_nil_iff, List.filter_eq_nil_iff,
      decide_eq_true_eq, not_forall]
    exact ⟨e, he, by simp [hec]⟩

/-- Witness for C6 on the spec's §8 scenario matrix
{(0,1)→1, (1,1)→1} with one 64×64 chunk. -/
theorem chunk_completeness_witness :
    (((writeForSciDB [⟨0, 1, 1⟩, ⟨1, 1, 1⟩] 64 64).map
      fun r => (r.chunkRow, r.chunkCol)).Nodup) ∧
    ((⟨0, 1, 1⟩ : Edge) ∈ ([⟨0, 1, 1⟩, ⟨1, 1, 1⟩] : SparseMatrix) ∧
      0 < (⟨0, 1, 1⟩ : Edge).weight ∧
      ∃ r ∈ writeForSciDB [⟨0, 1, 1⟩, ⟨1, 1, 1⟩] 64 64,
        (r.chunkRow, r.chunkCol) = edgeChunk 64 64 ⟨0, 1, 1⟩ ∧
        edgeLocal 64 64 ⟨0, 1, 1⟩ ∈ r.triples) ∧
    (∀ r ∈ writeForSciDB [⟨0, 1, 1⟩, ⟨1, 1, 1⟩] 64 64, r.triples ≠ []) :=
  ⟨(chunk_completeness [⟨0, 1, 1⟩, ⟨1, 1, 1⟩] 64 64).1,
   ⟨by decide, by decide,
    (chunk_completeness [⟨0, 1, 1⟩, ⟨1, 1, 1⟩] 64 64).2.1 ⟨0, 1, 1⟩
      (by decide) (by decide)⟩,
   (chunk_completeness [⟨0, 1, 1⟩, ⟨1, 1, 1⟩] 64 64).2.2⟩

lemma chunkLe_trans (a b c : Nat × Nat) (hab : chunkLe a b = true)
    (hbc : chunkLe b c = true) : chunkLe a c = true := by
  simp only [chunkLe, decide_eq_true_eq] at hab hbc ⊢
  omega

lemma chunkLe_total (a b : Nat × Nat) : (chunkLe a b || chunkLe b a) = true := by
  simp only [chunkLe, Bool.or_eq_true, decide_eq_true_eq]
  omega

/-- C7: the writer emits the non-empty chunks in ascending chunkRow
order, and within equal chunkRow in ascending chunkCol order, and each
record's header count equals the number of (localRow, localCol, weight)
triples that follow it. -/
theorem chunk_emission_order (m : SparseMatrix) (chunkRows chunkCols : Nat) :
    List.Pairwise (fun a b : ChunkRecord =>
      a.chunkRow < b.chunkRow ∨
        (a.chunkRow = b.chunkRow ∧ a.chunkCol < b.chunkCol))
      (writeForSciDB m chunkRows chunkCols) ∧
    ∀ r ∈ writeForSciDB m chunkRows chunkCols,
      r.entryCount = r.triples.length := by
  constructor
  · have hsorted :
        List.Pairwise (fun a b => chunkLe a b = true)
          (((m.map (edgeChunk chunkRows chunkCols)).dedup).mergeSort chunkLe) :=
      List.sorted_mergeSort chunkLe_trans chunkLe_total _
    have hnd := chunkCoords_nodup m chunkRows chunkCols
    have hstrict :
        List.Pairwise (fun a b : Nat × Nat =>
          a.1 < b.1 ∨ (a.1 = b.1 ∧ a.2 < b.2))
          (((m.map (edgeChunk chunkRows chunkCols)).dedup).mergeSort chunkLe) := by
      refine (hsorted.and hnd).imp ?_
      intro a b hab
      obtain ⟨hle, hne⟩ := hab
      simp only [chunkLe, decide_eq_true_eq] at hle
      have : ¬ (a.1 = b.1 ∧ a.2 = b.2) := by
        intro hx
        exact hne (Prod.ext hx.1 hx.2)
      omega
    rw [writeForSciDB]
    rw [List.pairwise_map]
    exact hstrict.imp fun h => h
  · intro r hr
    rw [writeForSciDB, List.mem_map] at hr
    obtain ⟨cc, _, hrec⟩ := hr
    subst hrec
    simp [List.length_map]

/-- An observable call the driver makes: adding one fiber to the
graph, or invoking the SciDB writer with the chunk-dimension list it
passes. -/
inductive Event where
  | addFiber (t : List Coord)
  | writeCall (chunkDims : List Nat)
deriving DecidableEq

/-- The fiber loop of `gengraph.main` (src/python/gengraph.py, lines
43–51): for each fiber, increment the running count, add the fiber to
the graph, and break once a positive `--count` cap has been reached;
the returned trace records the add calls made. -/
def mainLoop (cap : Int) (s : VolumeShape) (count : Nat) (m : SparseMatrix) :
    List (List Coord) → List Event × Except IndexError SparseMatrix
  | [] => ([], .ok m)
  | f :: rest =>
      match FiberGraph.add s m f with
      | .error e => ([Event.addFiber f], .error e)
      | .ok m' =>
          if (0 : Int) < cap ∧ ((count : Int) + 1) ≥ cap then
            ([Event.addFiber f], .ok m')
          else
            let next := mainLoop cap s (count + 1) m' rest
            (Event.addFiber f :: next.1, next.2)

/-- `gengraph.main` after argument parsing (src/python/gengraph.py,
lines 43–53): run the fiber loop from an empty graph and then call
`writeForSciDB` with the literal chunk-dimension list [65536, 65536]. -/
def mainRun (cap : Int) (s : VolumeShape) (fibers : List (List Coord)) :
    List Event × Except IndexError (List ChunkRecord) :=
  match mainLoop cap s 0 [] fibers with
  | (evs, .error e) => (evs, .error e)
  | (evs, .ok m) =>
      (evs ++ [Event.writeCall [65536, 65536]],
        .ok (writeForSciDB m 65536 65536))

/-- Is the event an invocation of the writer? -/
def isWriteEvent : Event → Bool
  | .writeCall _ => true
  | .addFiber _ => false

lemma mainLoop_events (s : VolumeShape) (cap : Int) :
    ∀ (fibers : List (List Coord)) (count : Nat) (m : SparseMatrix),
      ∀ e ∈ (mainLoop cap s count m fibers).1, isWriteEvent e = false := by
  intro fibers
  induction fibers with
  | nil =>
      intro count m e he
      simp [mainLoop] at he
  | cons f rest ih =>
      intro count m e he
      cases hadd : FiberGraph.add s m f with
      | error err =>
          simp [mainLoop, hadd] at he
          subst he
          rfl
      | ok m' =>
          by_cases hbr : (0 : Int) < cap ∧ ((count : Int) + 1) ≥ cap
          · simp [mainLoop, hadd, hbr] at he
            subst he
            rfl
          · simp [mainLoop, hadd, hbr] at he
            rcases he with he | he
            · subst he
              rfl
            · exact ih (count + 1) m' e he

lemma mainLoop_spec (s : VolumeShape) (cap : Int) :
    ∀ (fibers : List (List Coord)) (count : Nat) (m : SparseMatrix),
      0 < cap → (count : Int) < cap →
      (mainLoop cap s count m fibers).2 =
        accumulate s m (fibers.take (cap.toNat - count)) ∧
      ((fibers.take (cap.toNat - count)).all (trajOk s) = true →
        (mainLoop cap s count m fibers).1 =
          (fibers.take (cap.toNat - count)).map Event.addFiber) := by
  intro fibers
  induction fibers with
  | nil =>
      intro count m _ _
      constructor
      · simp [mainLoop, accumulate]
      · intro _
        simp [mainLoop]
  | cons f rest ih =>
      intro count m hcap hcount
      obtain ⟨b, hb⟩ : ∃ b, cap.toNat - count = b + 1 :=
        ⟨cap.toNat - count - 1, by omega⟩
      rw [hb, List.take_succ_cons]
      cases hadd : FiberGraph.add s m f with
      | error err =>
          have htraj : trajOk s f = false := by
            cases hx : trajOk s f
            · rfl
            · obtain ⟨m₁, hok, _, _, _⟩ := add_ok m hx
              rw [hadd] at hok
              cases hok
          constructor
          · simp [mainLoop, hadd, accumulate]
          · intro hall
            rw [List.all_cons, htraj] at hall
            cases hall
      | ok m' =>
          by_cases hbr : (0 : Int) < cap ∧ ((count : Int) + 1) ≥ cap
          · have hb0 : b = 0 := by omega
            subst hb0
            constructor
            · simp [mainLoop, hadd, hbr, accumulate]
            · intro _
              simp [mainLoop, hadd, hbr]
          · have hcount' : ((count : Nat) + 1 : Int) < cap := by
              rcases not_and_or.mp hbr with h | h
              · exact absurd hcap h
              · push_neg at h
                exact_mod_cast h
            have hb' : cap.toNat - (count + 1) = b := by omega
            have := ih (count + 1) m' hcap (by exact_mod_cast hcount')
            rw [hb'] at this
            obtain ⟨hres, hevs⟩ := this
            constructor
            · simp only [mainLoop, hadd, hbr, if_false]
              rw [hres]
              simp [accumulate, hadd]
            · intro hall
              rw [List.all_cons, Bool.and_eq_true] at hall
              simp only [mainLoop, hadd, hbr, if_false]
              rw [hevs hall.2, List.map_cons]

/-- C8: with a positive `--count` cap N, the driver adds exactly the
first min(N, M) of the M available fibers to the graph — the loop's
result is the accumulation of exactly that prefix (so the N-th fiber
is accumulated before stopping), and in an error-free run the add
calls it makes are exactly one per fiber of that prefix. -/
theorem count_cap (cap : Int) (s : VolumeShape) (fibers : List (List Coord))
    (hcap : 0 < cap) :
    (mainLoop cap s 0 [] fibers).2 =
      accumulate s [] (fibers.take (min cap.toNat fibers.length)) ∧
    ((fibers.take (min cap.toNat fibers.length)).all (trajOk s) = true →
      (mainLoop cap s 0 [] fibers).1 =
        (fibers.take (min cap.toNat fibers.length)).map Event.addFiber) := by
  have htake : fibers.take (min cap.toNat fibers.length) =
      fibers.take cap.toNat := by
    rcases Nat.le_total cap.toNat fibers.length with h | h
    · rw [Nat.min_eq_left h]
    · rw [Nat.min_eq_right h, List.take_length, List.take_of_length_le h]
  rw [htake]
  have := mainLoop_spec s cap fibers 0 [] hcap (by exact_mod_cast hcap)
  rw [Nat.sub_zero] at this
  exact this

/-- Witness for C8: cap 1 with two available fibers processes exactly
the first. -/
theorem count_cap_witness :
    (0 : Int) < 1 ∧
    (mainLoop 1 ⟨4, 4, 4⟩ 0 []
        [[⟨0, 0, 0⟩, ⟨1, 0, 0⟩], [⟨1, 0, 0⟩, ⟨1, 0, 0⟩]]).2 =
      accumulate ⟨4, 4, 4⟩ []
        (([[(⟨0, 0, 0⟩ : Coord), ⟨1, 0, 0⟩], [⟨1, 0, 0⟩, ⟨1, 0, 0⟩]]).take
          (min (1 : Int).toNat 2)) ∧
    (mainLoop 1 ⟨4, 4, 4⟩ 0 []
        [[⟨0, 0, 0⟩, ⟨1, 0, 0⟩], [⟨1, 0, 0⟩, ⟨1, 0, 0⟩]]).1 =
      (([[(⟨0, 0, 0⟩ : Coord), ⟨1, 0, 0⟩], [⟨1, 0, 0⟩, ⟨1, 0, 0⟩]]).take
        (min (1 : Int).toNat 2)).map Event.addFiber :=
  ⟨by decide,
   (count_cap 1 ⟨4, 4, 4⟩
     [[⟨0, 0, 0⟩, ⟨1, 0, 0⟩], [⟨1, 0, 0⟩, ⟨1, 0, 0⟩]] (by decide)).1,
   (count_cap 1 ⟨4, 4, 4⟩
     [[⟨0, 0, 0⟩, ⟨1, 0, 0⟩], [⟨1, 0, 0⟩, ⟨1, 0, 0⟩]] (by decide)).2
     (by decide)⟩

/-- C9: in every completed run of the driver the writer is invoked
exactly once, and only after every trajectory to be processed has been
consumed and accumulated: the event trace is the add calls followed by
a single terminal write call, so no chunk output precedes the end of
accumulation. -/
theorem writer_called_once_after_loop (cap : Int) (s : VolumeShape)
    (fibers : List (List Coord))
    (h : ∃ g, (mainRun cap s fibers).2 = .ok g) :
    (mainRun cap s fibers).1.countP isWriteEvent = 1 ∧
    ∃ pre, (mainRun cap s fibers).1 = pre ++ [Event.writeCall [65536, 65536]] ∧
      ∀ e ∈ pre, isWriteEvent e = false := by
  obtain ⟨g, hg⟩ := h
  cases hml : mainLoop cap s 0 [] fibers with
  | mk evs res =>
      cases res with
      | error err =>
          rw [mainRun, hml] at hg
          cases hg
      | ok m =>
          have hrun : (mainRun cap s fibers).1 =
              evs ++ [Event.writeCall [65536, 65536]] := by
            rw [mainRun, hml]
          have hevs : ∀ e ∈ evs, isWriteEvent e = false := by
            intro e he
            have := mainLoop_events s cap fibers 0 [] e
            rw [hml] at this
            exact this he
          refine ⟨?_, evs, hrun, hevs⟩
          rw [hrun, List.countP_append]
          have h0 : evs.countP isWriteEvent = 0 :=
            List.countP_eq_zero.mpr fun e he => by
              rw [hevs e he]
              exact Bool.false_ne_true
          rw [h0]
          rfl

/-- Witness for C9 on a concrete completed run. -/
theorem writer_called_once_after_loop_witness :
    (∃ g, (mainRun (-1) ⟨4, 4, 4⟩ []).2 = .ok g) ∧
    ((mainRun (-1) ⟨4, 4, 4⟩ []).1.countP isWriteEvent = 1 ∧
      ∃ pre, (mainRun (-1) ⟨4, 4, 4⟩ []).1 =
          pre ++ [Event.writeCall [65536, 65536]] ∧
        ∀ e ∈ pre, isWriteEvent e = false) :=
  ⟨⟨writeForSciDB [] 65536 65536, rfl⟩,
   writer_called_once_after_loop (-1) ⟨4, 4, 4⟩ []
     ⟨writeForSciDB [] 65536 65536, rfl⟩⟩

/-- C10: the chunk dimensions the driver passes to the writer are the
literal [65536, 65536] for every value of the command-line inputs (the
`--count` cap and the fiber contents of the input file): any writer
invocation in any run carries exactly that list. -/
theorem chunk_dims_fixed (cap : Int) (s : VolumeShape)
    (fibers : List (List Coord)) (dims : List Nat)
    (h : Event.writeCall dims ∈ (mainRun cap s fibers).1) :
    dims = [65536, 65536] := by
  cases hml : mainLoop cap s 0 [] fibers with
  | mk evs res =>
      have hevs : ∀ e ∈ evs, isWriteEvent e = false := by
        intro e he
        have := mainLoop_events s cap fibers 0 [] e
        rw [hml] at this
        exact this he
      cases res with
      | error err =>
          rw [mainRun, hml] at h
          have := hevs _ h
          cases this
      | ok m =>
          rw [mainRun, hml] at h
          rcases List.mem_append.mp h with h | h
          · have := hevs _ h
            cases this
          · rcases List.mem_singleton.mp h with h
            injection h

/-- Witness for C10 on a concrete run whose trace contains a writer
invocation. -/
theorem chunk_dims_fixed_witness :
    Event.writeCall [65536, 65536] ∈ (mainRun (-1) ⟨4, 4, 4⟩ []).1 ∧
    ([65536, 65536] : List Nat) = [65536, 65536] :=
  ⟨by decide,
   chunk_dims_fixed (-1) ⟨4, 4, 4⟩ [] [65536, 65536] (by decide)⟩

/-- Witness for C7: the emission-order and header-count property
instantiated on the concrete matrix {(0,1)→1, (1,1)→1}. -/
theorem chunk_emission_order_witness :
    List.Pairwise (fun a b : ChunkRecord =>
      a.chunkRow < b.chunkRow ∨
        (a.chunkRow = b.chunkRow ∧ a.chunkCol < b.chunkCol))
      (writeForSciDB [⟨0, 1, 1⟩, ⟨1, 1, 1⟩] 64 64) ∧
    ∀ r ∈ writeForSciDB [⟨0, 1, 1⟩, ⟨1, 1, 1⟩] 64 64,
      r.entryCount = r.triples.length :=
  chunk_emission_order [⟨0, 1, 1⟩, ⟨1, 1, 1⟩] 64 64
